import Mathlib

set_option autoImplicit false
set_option linter.unusedSectionVars false
set_option linter.unnecessarySimpa false

/-!
Verification of the generic BFS puzzle solver (`check`, `solve`, `backtrack`
from src/puzzle/src/lib.rs) against its specification.

The Rust `Puzzle` trait is embedded as a structure of a goal test and a
successor enumeration.  The `HashMap<P, Option<(P, P::Move)>>` is embedded as
an association list with distinct keys (only `get`/vacant-`insert`/`remove`
are used by the source, so association-list semantics is an exact model; the
map's iteration order is never used).  The `VecDeque` frontier is a list
(`push_back` appends, `pop_front` takes the head).  The unbounded `while`
loop of `solve` is embedded with an explicit fuel parameter; running out of
fuel is the extra `none` result of `solveLoopGen`, distinct from the source's
own failure result.  The `backtrack` loop removes one map entry per
iteration, hence performs at most `hm.length + 1` iterations; running its
body with that iteration budget is exactly the source's unbounded loop.
-/

/-- Puzzle interface (Rust trait `Puzzle`): a goal test and an enumeration of
the legal successor states of a state, each paired with the move producing
it. -/
structure Puzzle (σ μ : Type) where
  is_goal : σ → Bool
  next : σ → List (μ × σ)

/-- Discovery map of the solver: association list from a state to either
`none` (start state, no predecessor) or `some (predecessor, move)`. -/
abbrev DMap (σ μ : Type) : Type := List (σ × Option (σ × μ))

def DMap.lookup {σ μ : Type} [DecidableEq σ] : DMap σ μ → σ → Option (Option (σ × μ))
  | [], _ => none
  | (k, v) :: rest, s => if s = k then some v else DMap.lookup rest s

def DMap.keys {σ μ : Type} (hm : DMap σ μ) : List σ := hm.map Prod.fst

/-- Map with the entry of a key deleted (the mutation effect of
`HashMap::remove`; the value returned by `remove` is `DMap.lookup`). -/
def DMap.erase {σ μ : Type} [DecidableEq σ] : DMap σ μ → σ → DMap σ μ
  | [], _ => []
  | (k, v) :: rest, s => if s = k then rest else (k, v) :: DMap.erase rest s

/-- Inner scan of `check`: the first pair of the successor enumeration whose
move compares equal to the requested move (the Rust `for (m, pp) in p.next()`
loop with `if cm == &m`). -/
def firstMatch {σ μ : Type} [DecidableEq μ] : List (μ × σ) → μ → Option σ
  | [], _ => none
  | (m, pp) :: rest, cm => if cm = m then some pp else firstMatch rest cm

/-- Move-sequence verifier (Rust `check`).  The `println!` diagnostic of the
source has no bearing on the result and is not modelled. -/
def check {σ μ : Type} [DecidableEq μ] (P : Puzzle σ μ) : σ → List μ → Option σ
  | p, [] => if P.is_goal p then some p else none
  | p, cm :: ms =>
    match firstMatch (P.next p) cm with
    | some pp => check P pp ms
    | none => none

/-- The replay part of `check`: the state reached by following, for each move
in order, the first matching successor; no goal test at the end. -/
def replay {σ μ : Type} [DecidableEq μ] (P : Puzzle σ μ) : σ → List μ → Option σ
  | p, [] => some p
  | p, cm :: ms =>
    match firstMatch (P.next p) cm with
    | some pp => replay P pp ms
    | none => none

/-- Body of the Rust `backtrack` loop, with an explicit iteration budget.
Each iteration removes the entry of `p1` (`hash_map.remove(&p1)`): if there
is none, fail; if it is the start sentinel `none`, stop; otherwise record the
move and continue from the predecessor. -/
def backtrackAux {σ μ : Type} [DecidableEq σ] : Nat → DMap σ μ → σ → Option (List μ)
  | 0, _, _ => none
  | n + 1, hm, p1 =>
    match DMap.lookup hm p1 with
    | none => none
    | some none => some []
    | some (some pm) => (backtrackAux n (DMap.erase hm p1) pm.1).map (fun vec => pm.2 :: vec)

/-- Rust `backtrack`: walk the discovery map from `p1` towards the start,
removing each visited entry and collecting the moves in goal-to-start order.
Each iteration of the source's loop removes one entry of the map, so the loop
runs at most `hm.length + 1` times; the budget makes that bound explicit. -/
def backtrack {σ μ : Type} [DecidableEq σ] (hm : DMap σ μ) (p1 : σ) : Option (List μ) :=
  backtrackAux (hm.length + 1) hm p1

/-- Model of `VecDeque::pop_front`. -/
def popFront {σ : Type} : List σ → Option (σ × List σ)
  | [] => none
  | p :: rest => some (p, rest)

/-- The `for (m, puzz) in p.next()` loop of `solve`: for each successor in
enumeration order, if its state has no entry in the discovery map yet, push
it onto the frontier and record `some (p, m)` for it; otherwise skip it. -/
def expandLoop {σ μ : Type} [DecidableEq σ] (P : Puzzle σ μ) (p : σ) :
    List (μ × σ) → DMap σ μ → List σ → DMap σ μ × List σ
  | [], hm, queue => (hm, queue)
  | (m, puzz) :: rest, hm, queue =>
    match DMap.lookup hm puzz with
    | some _ => expandLoop P p rest hm queue
    | none => expandLoop P p rest ((puzz, some (p, m)) :: hm) (queue ++ [puzz])

/-- The `while !queue.is_empty()` loop of `solve`, with fuel.  The outer
`none` means the fuel ran out; `some none` is the source's own `None` result;
`some (some (ms, p))` is the source's `Some((ms, p))`.  The parameter `crash`
is the value returned by the `None` arm of the `queue.pop_front()` match in
the source (`return None`, that is `some none`); it is a parameter so that
the unreachability of that arm can be stated. -/
def solveLoopGen {σ μ : Type} [DecidableEq σ] (P : Puzzle σ μ)
    (crash : Option (Option (List μ × σ))) :
    Nat → DMap σ μ → List σ → Option (Option (List μ × σ))
  | 0, _, _ => none
  | fuel + 1, hm, queue =>
    if queue.isEmpty then
      some none
    else
      match popFront queue with
      | none => crash
      | some (p, rest) =>
        if P.is_goal p then
          match backtrack hm p with
          | none => some none
          | some vec => some (some (vec.reverse, p))
        else
          solveLoopGen P crash fuel (expandLoop P p (P.next p) hm rest).1
            (expandLoop P p (P.next p) hm rest).2

/-- The loop of `solve`, with the pop-front `None` arm returning what the
source returns there. -/
def solveLoop {σ μ : Type} [DecidableEq σ] (P : Puzzle σ μ) :
    Nat → DMap σ μ → List σ → Option (Option (List μ × σ)) :=
  solveLoopGen P (some none)

/-- Rust `solve`: seed the discovery map and the frontier with the start
state, then run the BFS loop. -/
def solveWithFuel {σ μ : Type} [DecidableEq σ] (P : Puzzle σ μ) (fuel : Nat) (p0 : σ) :
    Option (Option (List μ × σ)) :=
  solveLoop P fuel [(p0, none)] [p0]

/-- A sequence of legal moves from `p` to `q`: each move is taken, together
with the state it leads to, from the `next` enumeration of the state it is
applied to. -/
inductive Reaches {σ μ : Type} (P : Puzzle σ μ) : σ → List μ → σ → Prop
  | nil {p : σ} : Reaches P p [] p
  | cons {p p1 q : σ} {m : μ} {ms : List μ} :
      (m, p1) ∈ P.next p → Reaches P p1 ms q → Reaches P p (m :: ms) q

/-- The discovery-map/frontier configurations a run of `solve` on `p0` passes
through: the initial configuration, and one expansion step of the loop for a
popped non-goal state. -/
inductive SolveReach {σ μ : Type} [DecidableEq σ] (P : Puzzle σ μ) (p0 : σ) :
    DMap σ μ × List σ → Prop
  | init : SolveReach P p0 ([(p0, none)], [p0])
  | step {hm : DMap σ μ} {p : σ} {rest : List σ} :
      SolveReach P p0 (hm, p :: rest) → P.is_goal p = false →
      SolveReach P p0 (expandLoop P p (P.next p) hm rest)

/-- Discovery maps as built by the solver: the seed entry for the start
state, extended only by entries for fresh states whose recorded predecessor
is already a key and whose recorded move leads to them from it. -/
inductive GoodMap {σ μ : Type} [DecidableEq σ] (P : Puzzle σ μ) (p0 : σ) : DMap σ μ → Prop
  | base : GoodMap P p0 [(p0, none)]
  | extend {hm : DMap σ μ} {s pred : σ} {m : μ} :
      GoodMap P p0 hm → DMap.lookup hm s = none → DMap.lookup hm pred ≠ none →
      (m, s) ∈ P.next pred → GoodMap P p0 ((s, some (pred, m)) :: hm)

/-- Recorded depth of a state: the length of its backtracking chain. -/
def depN {σ μ : Type} [DecidableEq σ] (hm : DMap σ μ) (s : σ) : Nat :=
  ((backtrack hm s).getD []).length

/-- The solver-loop invariant: the discovery map is well-formed (`GoodMap`),
the frontier is recorded in the map, every recorded state not awaiting
expansion is a non-goal that has been fully expanded, the frontier depths
are non-decreasing and span at most two consecutive BFS layers, and every
recorded state is recorded at a depth not exceeding the length of any legal
move sequence reaching it. -/
structure SolveInv {σ μ : Type} [DecidableEq σ] (P : Puzzle σ μ) (p0 : σ)
    (hm : DMap σ μ) (queue : List σ) : Prop where
  gm : GoodMap P p0 hm
  qk : ∀ u ∈ queue, u ∈ DMap.keys hm
  ng : ∀ s ∈ DMap.keys hm, s ∉ queue → P.is_goal s = false
  sorted : queue.Pairwise (fun a b => depN hm a ≤ depN hm b)
  gap : ∀ a ∈ queue, ∀ b ∈ queue, depN hm a ≤ depN hm b + 1
  mindepth : ∀ s (ms : List μ), Reaches P p0 ms s → s ∈ DMap.keys hm → depN hm s ≤ ms.length
  proc : ∀ s ∈ DMap.keys hm, s ∉ queue → ∀ mt ∈ P.next s, mt.2 ∈ DMap.keys hm

/-- Concrete counter puzzle (states 0,1,2; move 0 increments, move 1
decrements; goal is 2). -/
def PcF : Puzzle (Fin 3) (Fin 2) where
  is_goal s := s == 2
  next s := if s = 0 then [(0, 1)] else if s = 1 then [(0, 2), (1, 0)] else []

/-- Concrete puzzle whose start has two successors labelled with the same
move: move 0 from state 0 leads both to state 1 (a dead end) and to state 2
(the goal). -/
def PbadF : Puzzle (Fin 3) (Fin 1) where
  is_goal s := s == 2
  next s := if s = 0 then [(0, 1), (0, 2)] else []

/-- Concrete one-state puzzle whose start state is already a goal. -/
def Ptriv : Puzzle (Fin 1) (Fin 1) where
  is_goal _ := true
  next _ := []

section MapLemmas

variable {σ μ : Type} [DecidableEq σ]

@[simp] theorem DMap.keys_nil : DMap.keys ([] : DMap σ μ) = [] := rfl

@[simp] theorem DMap.keys_cons (e : σ × Option (σ × μ)) (l : DMap σ μ) :
    DMap.keys (e :: l) = e.1 :: DMap.keys l := rfl

@[simp] theorem DMap.keys_append (l1 l2 : DMap σ μ) :
    DMap.keys (l1 ++ l2) = DMap.keys l1 ++ DMap.keys l2 := List.map_append _ _ _

theorem DMap.lookup_eq_none_iff (hm : DMap σ μ) (s : σ) :
    DMap.lookup hm s = none ↔ s ∉ DMap.keys hm := by
  induction hm with
  | nil => simp [DMap.lookup]
  | cons e rest ih =>
    obtain ⟨k, v⟩ := e
    by_cases h : s = k <;> simp [DMap.lookup, h, ih]

theorem DMap.mem_keys_of_lookup {hm : DMap σ μ} {s : σ} {v : Option (σ × μ)}
    (h : DMap.lookup hm s = some v) : s ∈ DMap.keys hm := by
  by_contra hmem
  rw [← DMap.lookup_eq_none_iff hm s] at hmem
  rw [h] at hmem
  exact Option.noConfusion hmem

theorem DMap.lookup_eq_some_of_mem {hm : DMap σ μ} {s : σ} (h : s ∈ DMap.keys hm) :
    ∃ v, DMap.lookup hm s = some v := by
  cases hl : DMap.lookup hm s with
  | none => exact absurd ((DMap.lookup_eq_none_iff hm s).mp hl) (fun c => c h)
  | some v => exact ⟨v, rfl⟩

theorem DMap.lookup_cons_ne {hm : DMap σ μ} {e : σ × Option (σ × μ)} {s : σ} (h : s ≠ e.1) :
    DMap.lookup (e :: hm) s = DMap.lookup hm s := by
  obtain ⟨k, v⟩ := e
  simp only [DMap.lookup, if_neg h]

theorem DMap.lookup_append_of_not_mem {l1 : DMap σ μ} (l2 : DMap σ μ) {s : σ}
    (h : s ∉ DMap.keys l1) : DMap.lookup (l1 ++ l2) s = DMap.lookup l2 s := by
  induction l1 with
  | nil => rfl
  | cons e rest ih =>
    simp only [DMap.keys_cons, List.mem_cons, not_or] at h
    rw [List.cons_append, DMap.lookup_cons_ne h.1, ih h.2]

theorem DMap.erase_of_not_mem {hm : DMap σ μ} {s : σ} (h : s ∉ DMap.keys hm) :
    DMap.erase hm s = hm := by
  induction hm with
  | nil => rfl
  | cons e rest ih =>
    obtain ⟨k, v⟩ := e
    simp only [DMap.keys_cons, List.mem_cons, not_or] at h
    simp only [DMap.erase, if_neg h.1, ih h.2]

theorem DMap.erase_length {hm : DMap σ μ} {s : σ} (h : s ∈ DMap.keys hm) :
    (DMap.erase hm s).length + 1 = hm.length := by
  induction hm with
  | nil => simp at h
  | cons e rest ih =>
    obtain ⟨k, v⟩ := e
    by_cases hs : s = k
    · simp [DMap.erase, hs]
    · simp only [DMap.keys_cons, List.mem_cons] at h
      rcases h with h | h
      · exact absurd h hs
      · simp only [DMap.erase, if_neg hs, List.length_cons]
        rw [← ih h]

theorem DMap.keys_erase_subset {hm : DMap σ μ} {s k : σ}
    (h : k ∈ DMap.keys (DMap.erase hm s)) : k ∈ DMap.keys hm := by
  induction hm with
  | nil => simpa [DMap.erase] using h
  | cons e rest ih =>
    obtain ⟨k', v⟩ := e
    by_cases hs : s = k'
    · simp only [DMap.erase, if_pos hs] at h
      simp [h]
    · simp only [DMap.erase, if_neg hs, DMap.keys_cons, List.mem_cons] at h
      rcases h with h | h
      · simp [h]
      · simp [ih h]

end MapLemmas

section BacktrackLemmas

variable {σ μ : Type} [DecidableEq σ]

theorem backtrackAux_irrel {n m : Nat} :
    ∀ {hm : DMap σ μ} {p : σ}, hm.length < n → hm.length < m →
      backtrackAux n hm p = backtrackAux m hm p := by
  induction n generalizing m with
  | zero => intro hm p h1 _; omega
  | succ n ih =>
    intro hm p h1 h2
    cases m with
    | zero => omega
    | succ m =>
      simp only [backtrackAux]
      cases hl : DMap.lookup hm p with
      | none => rfl
      | some vo =>
        cases vo with
        | none => rfl
        | some pm =>
          have hmem := DMap.mem_keys_of_lookup hl
          have hlen := DMap.erase_length hmem
          exact congrArg (Option.map fun vec => pm.2 :: vec)
            (ih (m := m) (by omega) (by omega))

theorem backtrack_eq (hm : DMap σ μ) (p1 : σ) :
    backtrack hm p1 =
      match DMap.lookup hm p1 with
      | none => none
      | some none => some []
      | some (some pm) =>
          (backtrack (DMap.erase hm p1) pm.1).map (fun vec => pm.2 :: vec) := by
  show backtrackAux (hm.length + 1) hm p1 = _
  simp only [backtrackAux]
  cases hl : DMap.lookup hm p1 with
  | none => rfl
  | some vo =>
    cases vo with
    | none => rfl
    | some pm =>
      have hmem := DMap.mem_keys_of_lookup hl
      have hlen := DMap.erase_length hmem
      exact congrArg (Option.map fun vec => pm.2 :: vec)
        (backtrackAux_irrel (m := (DMap.erase hm p1).length + 1) (by omega) (by omega))

theorem backtrack_lookup_ne_none {hm : DMap σ μ} {s : σ}
    (h : (backtrack hm s).isSome) : DMap.lookup hm s ≠ none := by
  intro hl
  rw [backtrack_eq, hl] at h
  simp at h

theorem backtrack_cons_fresh :
    ∀ (n : Nat) (hm : DMap σ μ) (e : σ × Option (σ × μ)) (s : σ), hm.length ≤ n →
      e.1 ∉ DMap.keys hm → (backtrack hm s).isSome →
      backtrack (e :: hm) s = backtrack hm s := by
  intro n
  induction n with
  | zero =>
    intro hm e s hlen _ hsome
    have : hm = [] := List.length_eq_zero.mp (Nat.le_zero.mp hlen)
    subst this
    rw [backtrack_eq] at hsome
    simp [DMap.lookup] at hsome
  | succ n ih =>
    intro hm e s hlen hfresh hsome
    have hne : s ≠ e.1 := by
      intro hs
      subst hs
      exact hfresh (DMap.mem_keys_of_lookup
        (Option.ne_none_iff_exists'.mp (backtrack_lookup_ne_none hsome)).choose_spec)
    rw [backtrack_eq (e :: hm) s, backtrack_eq hm s, DMap.lookup_cons_ne hne]
    cases hl : DMap.lookup hm s with
    | none => rfl
    | some vo =>
      have herase : DMap.erase (e :: hm) s = e :: DMap.erase hm s := by
        obtain ⟨k, v⟩ := e
        simp only [DMap.erase, if_neg hne]
      cases vo with
      | none => rfl
      | some pm =>
        rw [backtrack_eq hm s, hl] at hsome
        have hsome2 : (backtrack (DMap.erase hm s) pm.1).isSome := by
          simpa using hsome
        have hlen2 : (DMap.erase hm s).length ≤ n := by
          have := DMap.erase_length (DMap.mem_keys_of_lookup hl)
          omega
        have hfresh2 : e.1 ∉ DMap.keys (DMap.erase hm s) :=
          fun c => hfresh (DMap.keys_erase_subset c)
        rw [herase]
        exact congrArg (Option.map fun vec => pm.2 :: vec)
          (ih (DMap.erase hm s) e pm.1 hlen2 hfresh2 hsome2)

theorem backtrack_append_fresh :
    ∀ (ents : DMap σ μ) (hm : DMap σ μ) (s : σ), (DMap.keys ents).Nodup →
      (∀ k ∈ DMap.keys ents, k ∉ DMap.keys hm) → (backtrack hm s).isSome →
      backtrack (ents ++ hm) s = backtrack hm s := by
  intro ents
  induction ents with
  | nil => intro hm s _ _ _; rfl
  | cons e rest ih =>
    intro hm s hnd hfresh hsome
    simp only [DMap.keys_cons, List.nodup_cons] at hnd
    have hrest : backtrack (rest ++ hm) s = backtrack hm s :=
      ih hm s hnd.2 (fun k hk => hfresh k (by simp [hk])) hsome
    have hfr : e.1 ∉ DMap.keys (rest ++ hm) := by
      simp only [DMap.keys_append, List.mem_append, not_or]
      exact ⟨hnd.1, hfresh e.1 (by simp)⟩
    calc backtrack (e :: (rest ++ hm)) s = backtrack (rest ++ hm) s :=
          backtrack_cons_fresh (rest ++ hm).length (rest ++ hm) e s le_rfl hfr
            (hrest ▸ hsome)
      _ = backtrack hm s := hrest

end BacktrackLemmas

section ReachesLemmas

variable {σ μ : Type}

theorem Reaches.snoc {P : Puzzle σ μ} {a b c : σ} {ms : List μ} {m : μ}
    (h : Reaches P a ms b) (hstep : (m, c) ∈ P.next b) : Reaches P a (ms ++ [m]) c := by
  induction h with
  | nil => exact Reaches.cons hstep Reaches.nil
  | cons h1 _ ih => exact Reaches.cons h1 (ih hstep)

theorem Reaches.append_trans {P : Puzzle σ μ} {a b c : σ} {ms1 ms2 : List μ}
    (h1 : Reaches P a ms1 b) (h2 : Reaches P b ms2 c) : Reaches P a (ms1 ++ ms2) c := by
  induction h1 with
  | nil => exact h2
  | cons hs _ ih => exact Reaches.cons hs (ih h2)

end ReachesLemmas

section GoodMapLemmas

variable {σ μ : Type} [DecidableEq σ]

theorem GoodMap.lookup_p0 {P : Puzzle σ μ} {p0 : σ} {hm : DMap σ μ} (h : GoodMap P p0 hm) :
    DMap.lookup hm p0 ≠ none := by
  induction h with
  | base => simp [DMap.lookup]
  | extend hgm hs hpred hmem ih =>
    rename_i hm' s pred m
    by_cases hp : p0 = s
    · simp [DMap.lookup, hp]
    · rw [DMap.lookup_cons_ne hp]
      exact ih

theorem GoodMap.keys_nodup {P : Puzzle σ μ} {p0 : σ} {hm : DMap σ μ} (h : GoodMap P p0 hm) :
    (DMap.keys hm).Nodup := by
  induction h with
  | base => simp
  | extend hgm hs hpred hmem ih =>
    simp only [DMap.keys_cons, List.nodup_cons]
    exact ⟨(DMap.lookup_eq_none_iff _ _).mp hs, ih⟩

theorem GoodMap.backtrack_reaches {P : Puzzle σ μ} {p0 : σ} {hm : DMap σ μ}
    (h : GoodMap P p0 hm) :
    ∀ s v, DMap.lookup hm s = some v →
      ∃ vec, backtrack hm s = some vec ∧ Reaches P p0 vec.reverse s := by
  induction h with
  | base =>
    intro s v hl
    by_cases hp : s = p0
    · subst hp
      refine ⟨[], ?_, Reaches.nil⟩
      rw [backtrack_eq]
      simp [DMap.lookup]
    · rw [DMap.lookup_cons_ne (by simpa using hp)] at hl
      simp [DMap.lookup] at hl
  | extend hgm hs hpred hmem ih =>
    rename_i hm' s pred m
    intro t v hl
    by_cases ht : t = s
    · subst ht
      obtain ⟨w, hw⟩ := Option.ne_none_iff_exists'.mp hpred
      obtain ⟨vecp, hbp, hrp⟩ := ih pred w hw
      refine ⟨m :: vecp, ?_, ?_⟩
      · rw [backtrack_eq]
        have hlt : DMap.lookup ((t, some (pred, m)) :: hm') t = some (some (pred, m)) := by
          simp [DMap.lookup]
        rw [hlt]
        have her : DMap.erase ((t, some (pred, m)) :: hm') t = hm' := by
          simp [DMap.erase]
        rw [her]
        simp [hbp]
      · rw [List.reverse_cons]
        exact Reaches.snoc hrp hmem
    · rw [DMap.lookup_cons_ne (by simpa using ht)] at hl
      obtain ⟨vec, hb, hr⟩ := ih t v hl
      refine ⟨vec, ?_, hr⟩
      have hfresh : (s, some (pred, m)).1 ∉ DMap.keys hm' := by
        simpa using (DMap.lookup_eq_none_iff hm' s).mp hs
      rw [backtrack_cons_fresh hm'.length hm' (s, some (pred, m)) t le_rfl hfresh
        (by rw [hb]; simp)]
      exact hb

end GoodMapLemmas

section ExpandLemmas

variable {σ μ : Type} [DecidableEq σ]

theorem expand_lookup_pres {P : Puzzle σ μ} {p : σ} :
    ∀ (l : List (μ × σ)) (hm : DMap σ μ) (queue : List σ) (s : σ) (v : Option (σ × μ)),
      DMap.lookup hm s = some v →
      DMap.lookup (expandLoop P p l hm queue).1 s = some v := by
  intro l
  induction l with
  | nil => intro hm queue s v h; exact h
  | cons mt rest ih =>
    obtain ⟨m, t⟩ := mt
    intro hm queue s v h
    cases hl : DMap.lookup hm t with
    | some w =>
      have heq : expandLoop P p ((m, t) :: rest) hm queue = expandLoop P p rest hm queue := by
        simp [expandLoop, hl]
      rw [heq]
      exact ih hm queue s v h
    | none =>
      have heq : expandLoop P p ((m, t) :: rest) hm queue =
          expandLoop P p rest ((t, some (p, m)) :: hm) (queue ++ [t]) := by
        simp [expandLoop, hl]
      rw [heq]
      have hne : s ≠ t := by
        intro he
        subst he
        rw [h] at hl
        exact Option.noConfusion hl
      exact ih _ _ s v (by rw [DMap.lookup_cons_ne (by simpa using hne)]; exact h)

theorem expand_gm {P : Puzzle σ μ} {p0 p : σ} :
    ∀ (l : List (μ × σ)) (hm : DMap σ μ) (queue : List σ), GoodMap P p0 hm →
      DMap.lookup hm p ≠ none → (∀ x ∈ l, x ∈ P.next p) →
      GoodMap P p0 (expandLoop P p l hm queue).1 := by
  intro l
  induction l with
  | nil => intro hm queue hgm _ _; exact hgm
  | cons mt rest ih =>
    obtain ⟨m, t⟩ := mt
    intro hm queue hgm hp hsub
    cases hl : DMap.lookup hm t with
    | some w =>
      have heq : expandLoop P p ((m, t) :: rest) hm queue = expandLoop P p rest hm queue := by
        simp [expandLoop, hl]
      rw [heq]
      exact ih hm queue hgm hp (fun x hx => hsub x (List.mem_cons_of_mem _ hx))
    | none =>
      have heq : expandLoop P p ((m, t) :: rest) hm queue =
          expandLoop P p rest ((t, some (p, m)) :: hm) (queue ++ [t]) := by
        simp [expandLoop, hl]
      rw [heq]
      have hpt : p ≠ t := by
        intro he
        subst he
        exact hp hl
      refine ih _ _ (GoodMap.extend hgm hl hp (hsub (m, t) (List.mem_cons_self _ _))) ?_
        (fun x hx => hsub x (List.mem_cons_of_mem _ hx))
      rw [DMap.lookup_cons_ne (by simpa using hpt)]
      exact hp

theorem expand_spec {P : Puzzle σ μ} (p : σ) :
    ∀ (l : List (μ × σ)) (hm : DMap σ μ) (queue : List σ),
      ∃ ents : DMap σ μ,
        (expandLoop P p l hm queue).1 = ents ++ hm ∧
        (expandLoop P p l hm queue).2 = queue ++ (DMap.keys ents).reverse ∧
        (DMap.keys ents).Nodup ∧
        (∀ k ∈ DMap.keys ents, DMap.lookup hm k = none) ∧
        (∀ e ∈ ents, ∃ m : μ, e.2 = some (p, m) ∧ (m, e.1) ∈ l) ∧
        (∀ mt ∈ l, mt.2 ∈ DMap.keys hm ∨ mt.2 ∈ DMap.keys ents) := by
  intro l
  induction l with
  | nil =>
    intro hm queue
    exact ⟨[], rfl, by simp [expandLoop], by simp, by simp, by simp, by simp⟩
  | cons mt0 rest ih =>
    obtain ⟨m, t⟩ := mt0
    intro hm queue
    cases hl : DMap.lookup hm t with
    | some w =>
      have heq : expandLoop P p ((m, t) :: rest) hm queue = expandLoop P p rest hm queue := by
        simp [expandLoop, hl]
      obtain ⟨ents, h1, h2, h3, h4, h5, h6⟩ := ih hm queue
      rw [heq]
      refine ⟨ents, h1, h2, h3, h4, ?_, ?_⟩
      · intro e he
        obtain ⟨m', hv, hmem⟩ := h5 e he
        exact ⟨m', hv, List.mem_cons_of_mem _ hmem⟩
      · intro mt hmt
        rcases List.mem_cons.mp hmt with hmt | hmt
        · subst hmt
          exact Or.inl (DMap.mem_keys_of_lookup hl)
        · exact h6 mt hmt
    | none =>
      have heq : expandLoop P p ((m, t) :: rest) hm queue =
          expandLoop P p rest ((t, some (p, m)) :: hm) (queue ++ [t]) := by
        simp [expandLoop, hl]
      obtain ⟨ents, h1, h2, h3, h4, h5, h6⟩ := ih ((t, some (p, m)) :: hm) (queue ++ [t])
      rw [heq]
      have htents : t ∉ DMap.keys ents := by
        intro hc
        have := h4 t hc
        simp [DMap.lookup] at this
      refine ⟨ents ++ [(t, some (p, m))], ?_, ?_, ?_, ?_, ?_, ?_⟩
      · rw [h1]
        simp
      · rw [h2]
        simp
      · simp only [DMap.keys_append, DMap.keys_cons, DMap.keys_nil]
        rw [List.nodup_append]
        refine ⟨h3, by simp, ?_⟩
        intro a ha hb
        simp only [List.mem_singleton] at hb
        subst hb
        exact htents ha
      · intro k hk
        simp only [DMap.keys_append, DMap.keys_cons, DMap.keys_nil, List.mem_append,
          List.mem_singleton] at hk
        rcases hk with hk | hk
        · have := h4 k hk
          have hkt : k ≠ t := by
            intro he
            subst he
            simp [DMap.lookup] at this
          rwa [DMap.lookup_cons_ne (by simpa using hkt)] at this
        · subst hk
          exact hl
      · intro e he
        rcases List.mem_append.mp he with he | he
        · obtain ⟨m', hv, hmem⟩ := h5 e he
          exact ⟨m', hv, List.mem_cons_of_mem _ hmem⟩
        · simp only [List.mem_singleton] at he
          subst he
          exact ⟨m, rfl, List.mem_cons_self _ _⟩
      · intro mt hmt
        rcases List.mem_cons.mp hmt with hmt | hmt
        · subst hmt
          simp
        · rcases h6 mt hmt with hk | hk
          · simp only [DMap.keys_cons, List.mem_cons] at hk
            rcases hk with hk | hk
            · right; simp [hk]
            · exact Or.inl hk
          · right; simp [hk]

/-- When the same successor state occurs several times in the enumeration,
only its first occurrence (the first one with a vacant entry) creates the
discovery entry; later occurrences find the entry occupied and are dropped. -/
theorem expand_first_wins {P : Puzzle σ μ} {p : σ} :
    ∀ (l1 : List (μ × σ)) (m : μ) (t : σ) (l2 : List (μ × σ)) (hm : DMap σ μ)
      (queue : List σ), (∀ x ∈ l1, x.2 ≠ t) → DMap.lookup hm t = none →
      DMap.lookup (expandLoop P p (l1 ++ (m, t) :: l2) hm queue).1 t = some (some (p, m)) := by
  intro l1
  induction l1 with
  | nil =>
    intro m t l2 hm queue _ hl
    have heq : expandLoop P p ((m, t) :: l2) hm queue =
        expandLoop P p l2 ((t, some (p, m)) :: hm) (queue ++ [t]) := by
      simp [expandLoop, hl]
    rw [List.nil_append, heq]
    exact expand_lookup_pres l2 _ _ t (some (p, m)) (by simp [DMap.lookup])
  | cons x l1 ih =>
    obtain ⟨mx, tx⟩ := x
    intro m t l2 hm queue hne hl
    have htx : tx ≠ t := hne (mx, tx) (List.mem_cons_self _ _)
    have hne2 : ∀ x ∈ l1, x.2 ≠ t := fun x hx => hne x (List.mem_cons_of_mem _ hx)
    cases hlx : DMap.lookup hm tx with
    | some w =>
      have heq : expandLoop P p (((mx, tx) :: l1) ++ (m, t) :: l2) hm queue =
          expandLoop P p (l1 ++ (m, t) :: l2) hm queue := by
        simp [expandLoop, hlx]
      rw [heq]
      exact ih m t l2 hm queue hne2 hl
    | none =>
      have heq : expandLoop P p (((mx, tx) :: l1) ++ (m, t) :: l2) hm queue =
          expandLoop P p (l1 ++ (m, t) :: l2) ((tx, some (p, mx)) :: hm) (queue ++ [tx]) := by
        simp [expandLoop, hlx]
      rw [heq]
      refine ih m t l2 _ _ hne2 ?_
      rw [DMap.lookup_cons_ne (by simpa using Ne.symm htx)]
      exact hl

end ExpandLemmas

section DepthLemmas

variable {σ μ : Type} [DecidableEq σ]

theorem depN_eq_of_backtrack {hm : DMap σ μ} {s : σ} {vec : List μ}
    (h : backtrack hm s = some vec) : depN hm s = vec.length := by
  simp [depN, h]

/-- Depth of a freshly inserted entry: one more than the depth of its
recorded predecessor. -/
theorem backtrack_new_entry {hm ents : DMap σ μ} {p t : σ} {m : μ} {vecp : List μ}
    (hnd : (DMap.keys ents).Nodup) (hfresh : ∀ k ∈ DMap.keys ents, k ∉ DMap.keys hm)
    (hment : (t, some (p, m)) ∈ ents) (hbp : backtrack hm p = some vecp) :
    backtrack (ents ++ hm) t = some (m :: vecp) := by
  obtain ⟨A, B, hAB⟩ := List.append_of_mem hment
  subst hAB
  have hkeys : DMap.keys (A ++ (t, some (p, m)) :: B) =
      DMap.keys A ++ t :: DMap.keys B := by simp
  rw [hkeys] at hnd hfresh
  rw [List.nodup_append] at hnd
  obtain ⟨hndA, hndTB, hdisj⟩ := hnd
  rw [List.nodup_cons] at hndTB
  have hfreshA : ∀ k ∈ DMap.keys A, k ∉ DMap.keys hm :=
    fun k hk => hfresh k (by simp [hk])
  have hfreshB : ∀ k ∈ DMap.keys B, k ∉ DMap.keys hm :=
    fun k hk => hfresh k (by simp [hk])
  have htm : t ∉ DMap.keys hm := hfresh t (by simp)
  have hinner : backtrack ((t, some (p, m)) :: (B ++ hm)) t = some (m :: vecp) := by
    rw [backtrack_eq]
    have hlt : DMap.lookup ((t, some (p, m)) :: (B ++ hm)) t = some (some (p, m)) := by
      simp [DMap.lookup]
    have her : DMap.erase ((t, some (p, m)) :: (B ++ hm)) t = B ++ hm := by
      simp [DMap.erase]
    rw [hlt, her]
    show Option.map (fun vec => m :: vec) (backtrack (B ++ hm) p) = some (m :: vecp)
    rw [backtrack_append_fresh B hm p hndTB.2 hfreshB (by rw [hbp]; simp), hbp]
    rfl
  have hrw : A ++ (t, some (p, m)) :: B ++ hm = A ++ ((t, some (p, m)) :: (B ++ hm)) := by
    simp
  rw [hrw]
  rw [backtrack_append_fresh A _ t hndA ?_ (by rw [hinner]; simp)]
  · exact hinner
  · intro k hk
    simp only [DMap.keys_cons, DMap.keys_append, List.mem_cons, List.mem_append, not_or]
    have hne := hdisj hk
    rw [List.mem_cons] at hne
    exact ⟨fun h => hne (Or.inl h), fun h => hne (Or.inr h), hfreshA k hk⟩

theorem pairwiseMonoMem {α : Type} {l : List α} {R S : α → α → Prop}
    (h : ∀ a ∈ l, ∀ b ∈ l, R a b → S a b) : l.Pairwise R → l.Pairwise S := by
  induction l with
  | nil => intro _; exact List.Pairwise.nil
  | cons x xs ih =>
    intro hp
    rw [List.pairwise_cons] at hp ⊢
    refine ⟨fun b hb => h x (by simp) b (by simp [hb]) (hp.1 b hb), ?_⟩
    exact ih (fun a ha b hb => h a (by simp [ha]) b (by simp [hb])) hp.2

end DepthLemmas


section InvLemmas

variable {σ μ : Type} [DecidableEq σ]

theorem backtrack_singleton_start (p0 : σ) :
    backtrack ([(p0, none)] : DMap σ μ) p0 = some [] := by
  rw [backtrack_eq]
  simp [DMap.lookup]

theorem inv_init (P : Puzzle σ μ) (p0 : σ) : SolveInv P p0 [(p0, none)] [p0] where
  gm := GoodMap.base
  qk := by intro u hu; simpa using hu
  ng := by
    intro s hs hns
    simp only [DMap.keys_cons, DMap.keys_nil, List.mem_singleton] at hs
    exact absurd (by simp [hs]) hns
  sorted := by simp
  gap := by
    intro a ha b hb
    simp only [List.mem_singleton] at ha hb
    subst ha; subst hb
    omega
  mindepth := by
    intro s ms _ hs
    simp only [DMap.keys_cons, DMap.keys_nil, List.mem_singleton] at hs
    subst hs
    rw [depN_eq_of_backtrack (backtrack_singleton_start s)]
    simp
  proc := by
    intro s hs hns
    simp only [DMap.keys_cons, DMap.keys_nil, List.mem_singleton] at hs
    exact absurd (by simp [hs]) hns

theorem inv_p0_mem {P : Puzzle σ μ} {p0 : σ} {hm : DMap σ μ} {queue : List σ}
    (inv : SolveInv P p0 hm queue) : p0 ∈ DMap.keys hm := by
  obtain ⟨v, hv⟩ := Option.ne_none_iff_exists'.mp inv.gm.lookup_p0
  exact DMap.mem_keys_of_lookup hv

/-- Any legal path from the start to a state not yet discovered passes
through a frontier state, recorded at a depth bounded by the length of the
path prefix reaching it. -/
theorem inv_cover {P : Puzzle σ μ} {p0 : σ} {hm : DMap σ μ} {queue : List σ}
    (inv : SolveInv P p0 hm queue) :
    ∀ (s : σ) (ms : List μ), Reaches P p0 ms s → s ∉ DMap.keys hm →
      ∃ u ρ1 ρ2, u ∈ queue ∧ ms = ρ1 ++ ρ2 ∧ Reaches P p0 ρ1 u ∧ Reaches P u ρ2 s ∧
        depN hm u ≤ ρ1.length := by
  intro s ms hR hs
  have aux : ∀ (π2 : List μ) (v : σ), Reaches P v π2 s → v ∈ DMap.keys hm →
      ∀ π1, Reaches P p0 π1 v →
        ∃ u ρ1 ρ2, u ∈ queue ∧ π1 ++ π2 = ρ1 ++ ρ2 ∧ Reaches P p0 ρ1 u ∧
          Reaches P u ρ2 s ∧ depN hm u ≤ ρ1.length := by
    intro π2
    induction π2 with
    | nil =>
      intro v hR2 hv π1 hπ1
      cases hR2
      exact absurd hv hs
    | cons m ms2 ih =>
      intro v hR2 hv π1 hπ1
      cases hR2 with
      | cons hstep htail =>
        rename_i p1
        by_cases h1 : p1 ∈ DMap.keys hm
        · obtain ⟨u, ρ1, ρ2, hu, heq, hρ1, hρ2, hd⟩ :=
            ih p1 htail h1 (π1 ++ [m]) (Reaches.snoc hπ1 hstep)
          refine ⟨u, ρ1, ρ2, hu, ?_, hρ1, hρ2, hd⟩
          rw [← heq]
          simp
        · have hq : v ∈ queue := by
            by_contra hnq
            exact h1 (inv.proc v hv hnq (m, p1) hstep)
          exact ⟨v, π1, m :: ms2, hq, rfl, hπ1, Reaches.cons hstep htail,
            inv.mindepth v π1 hπ1 hv⟩
  have := aux ms p0 hR (inv_p0_mem inv) [] Reaches.nil
  simpa using this

/-- One non-goal expansion step of the BFS loop preserves the invariant. -/
theorem inv_step {P : Puzzle σ μ} {p0 p : σ} {hm : DMap σ μ} {rest : List σ}
    (inv : SolveInv P p0 hm (p :: rest)) (hng : P.is_goal p = false) :
    SolveInv P p0 (expandLoop P p (P.next p) hm rest).1
      (expandLoop P p (P.next p) hm rest).2 := by
  obtain ⟨ents, h1, h2, h3, h4, h5, h6⟩ := expand_spec p (P.next p) hm rest
  have hpk : p ∈ DMap.keys hm := inv.qk p (List.mem_cons_self _ _)
  obtain ⟨vp, hvp⟩ := DMap.lookup_eq_some_of_mem hpk
  obtain ⟨vecp, hbp, hrp⟩ := inv.gm.backtrack_reaches p vp hvp
  have hfresh : ∀ k ∈ DMap.keys ents, k ∉ DMap.keys hm :=
    fun k hk => (DMap.lookup_eq_none_iff hm k).mp (h4 k hk)
  have hdep_old : ∀ s ∈ DMap.keys hm, depN (ents ++ hm) s = depN hm s := by
    intro s hsk
    obtain ⟨v, hv⟩ := DMap.lookup_eq_some_of_mem hsk
    obtain ⟨vec, hb, _⟩ := inv.gm.backtrack_reaches s v hv
    unfold depN
    rw [backtrack_append_fresh ents hm s h3 hfresh (by rw [hb]; simp)]
  have hdep_new : ∀ t ∈ DMap.keys ents, depN (ents ++ hm) t = depN hm p + 1 := by
    intro t ht
    have ht2 : t ∈ List.map Prod.fst ents := ht
    obtain ⟨e, he, het⟩ := List.mem_map.mp ht2
    obtain ⟨m, hv, _⟩ := h5 e he
    have he2 : (t, some (p, m)) ∈ ents := by
      rw [← het, ← hv, Prod.mk.eta]
      exact he
    have hbt := backtrack_new_entry h3 hfresh he2 hbp
    rw [depN_eq_of_backtrack hbt, depN_eq_of_backtrack hbp]
    simp
  have hkeys2 : DMap.keys (ents ++ hm) = DMap.keys ents ++ DMap.keys hm := by simp
  have hq2 : ∀ x : σ, x ∈ (DMap.keys ents).reverse ↔ x ∈ DMap.keys ents :=
    fun x => List.mem_reverse
  have hsorted_head : ∀ b ∈ rest, depN hm p ≤ depN hm b := (List.pairwise_cons.mp inv.sorted).1
  have hsorted_rest : rest.Pairwise (fun a b => depN hm a ≤ depN hm b) :=
    (List.pairwise_cons.mp inv.sorted).2
  rw [h1, h2]
  refine ⟨?_, ?_, ?_, ?_, ?_, ?_, ?_⟩
  · -- GoodMap
    have hgm := expand_gm (P.next p) hm rest inv.gm (by rw [hvp]; simp) (fun x hx => hx)
    rwa [h1] at hgm
  · -- frontier recorded in the map
    intro u hu
    rw [hkeys2]
    rcases List.mem_append.mp hu with hu | hu
    · exact List.mem_append.mpr (Or.inr (inv.qk u (List.mem_cons_of_mem _ hu)))
    · exact List.mem_append.mpr (Or.inl ((hq2 u).mp hu))
  · -- recorded states off the frontier are non-goals
    intro s hsk hns
    rw [hkeys2] at hsk
    rcases List.mem_append.mp hsk with hsk | hsk
    · exact absurd (List.mem_append.mpr (Or.inr ((hq2 s).mpr hsk))) hns
    · by_cases hsp : s = p
      · subst hsp
        exact hng
      · refine inv.ng s hsk ?_
        intro hc
        rcases List.mem_cons.mp hc with hc | hc
        · exact hsp hc
        · exact hns (List.mem_append.mpr (Or.inl hc))
  · -- frontier depths non-decreasing
    rw [List.pairwise_append]
    refine ⟨?_, ?_, ?_⟩
    · refine pairwiseMonoMem ?_ hsorted_rest
      intro a ha b hb hab
      rw [hdep_old a (inv.qk a (List.mem_cons_of_mem _ ha)),
        hdep_old b (inv.qk b (List.mem_cons_of_mem _ hb))]
      exact hab
    · refine List.pairwise_of_forall_mem_list ?_
      intro a ha b hb
      rw [hdep_new a ((hq2 a).mp ha), hdep_new b ((hq2 b).mp hb)]
    · intro a ha b hb
      rw [hdep_old a (inv.qk a (List.mem_cons_of_mem _ ha)), hdep_new b ((hq2 b).mp hb)]
      exact inv.gap a (List.mem_cons_of_mem _ ha) p (List.mem_cons_self _ _)
  · -- frontier spans at most two BFS layers
    intro a ha b hb
    rcases List.mem_append.mp ha with ha2 | ha2 <;> rcases List.mem_append.mp hb with hb2 | hb2
    · rw [hdep_old a (inv.qk a (List.mem_cons_of_mem _ ha2)),
        hdep_old b (inv.qk b (List.mem_cons_of_mem _ hb2))]
      exact inv.gap a (List.mem_cons_of_mem _ ha2) b (List.mem_cons_of_mem _ hb2)
    · rw [hdep_old a (inv.qk a (List.mem_cons_of_mem _ ha2)), hdep_new b ((hq2 b).mp hb2)]
      have := inv.gap a (List.mem_cons_of_mem _ ha2) p (List.mem_cons_self _ _)
      omega
    · rw [hdep_new a ((hq2 a).mp ha2), hdep_old b (inv.qk b (List.mem_cons_of_mem _ hb2))]
      have := hsorted_head b hb2
      omega
    · rw [hdep_new a ((hq2 a).mp ha2), hdep_new b ((hq2 b).mp hb2)]
      omega
  · -- recorded depth bounds the length of every path
    intro s ms hR hsk
    rw [hkeys2] at hsk
    rcases List.mem_append.mp hsk with hsk | hsk
    · have hsnot : s ∉ DMap.keys hm := hfresh s hsk
      obtain ⟨u, ρ1, ρ2, hu, heq, hρ1, hρ2, hd⟩ := inv_cover inv s ms hR hsnot
      have hρ2ne : ρ2 ≠ [] := by
        intro hc
        subst hc
        cases hρ2
        exact hsnot (inv.qk _ hu)
      have hdp : depN hm p ≤ depN hm u := by
        rcases List.mem_cons.mp hu with hu2 | hu2
        · exact le_of_eq (by rw [hu2])
        · exact hsorted_head u hu2
      rw [hdep_new s hsk]
      have hlen : ms.length = ρ1.length + ρ2.length := by
        rw [heq, List.length_append]
      have hpos : 0 < ρ2.length := List.length_pos.mpr hρ2ne
      omega
    · rw [hdep_old s hsk]
      exact inv.mindepth s ms hR hsk
  · -- recorded states off the frontier are fully expanded
    intro s hsk hns mt hmt
    rw [hkeys2] at hsk
    rw [hkeys2]
    rcases List.mem_append.mp hsk with hsk | hsk
    · exact absurd (List.mem_append.mpr (Or.inr ((hq2 s).mpr hsk))) hns
    · by_cases hsp : s = p
      · subst hsp
        rcases h6 mt hmt with hk | hk
        · exact List.mem_append.mpr (Or.inr hk)
        · exact List.mem_append.mpr (Or.inl hk)
      · have hs2 : s ∉ p :: rest := by
          intro hc
          rcases List.mem_cons.mp hc with hc | hc
          · exact hsp hc
          · exact hns (List.mem_append.mpr (Or.inl hc))
        exact List.mem_append.mpr (Or.inr (inv.proc s hsk hs2 mt hmt))

end InvLemmas

section LoopLemmas

variable {σ μ : Type} [DecidableEq σ]

theorem solveLoop_zero (P : Puzzle σ μ) (hm : DMap σ μ) (queue : List σ) :
    solveLoop P 0 hm queue = none := rfl

theorem solveLoop_nil (P : Puzzle σ μ) (fuel : Nat) (hm : DMap σ μ) :
    solveLoop P (fuel + 1) hm [] = some none := rfl

theorem solveLoop_cons (P : Puzzle σ μ) (fuel : Nat) (hm : DMap σ μ) (p : σ) (rest : List σ) :
    solveLoop P (fuel + 1) hm (p :: rest) =
      if P.is_goal p then
        match backtrack hm p with
        | none => some none
        | some vec => some (some (vec.reverse, p))
      else
        solveLoop P fuel (expandLoop P p (P.next p) hm rest).1
          (expandLoop P p (P.next p) hm rest).2 := rfl

/-- Main correctness of the BFS loop under the invariant: a returned
solution is a legal path to a goal of minimal length among all legal paths
to goals; a returned failure means no legal path reaches a goal. -/
theorem loop_correct {P : Puzzle σ μ} {p0 : σ} :
    ∀ (fuel : Nat) (hm : DMap σ μ) (queue : List σ) (r : Option (List μ × σ)),
      SolveInv P p0 hm queue → solveLoop P fuel hm queue = some r →
      (∀ ms g, r = some (ms, g) →
        P.is_goal g = true ∧ Reaches P p0 ms g ∧
        ∀ (ns : List μ) (g2 : σ), Reaches P p0 ns g2 → P.is_goal g2 = true →
          ms.length ≤ ns.length) ∧
      (r = none → ∀ (ns : List μ) (g2 : σ), Reaches P p0 ns g2 → P.is_goal g2 = false) := by
  intro fuel
  induction fuel with
  | zero =>
    intro hm queue r _ hrun
    rw [solveLoop_zero] at hrun
    exact Option.noConfusion hrun
  | succ fuel ih =>
    intro hm queue r inv hrun
    cases queue with
    | nil =>
      rw [solveLoop_nil] at hrun
      have hr : r = none := (Option.some.inj hrun).symm
      subst hr
      refine ⟨fun ms g h => Option.noConfusion h, fun _ ns g2 hR => ?_⟩
      by_cases hk : g2 ∈ DMap.keys hm
      · exact inv.ng g2 hk (by simp)
      · obtain ⟨u, _, _, hu, _⟩ := inv_cover inv g2 ns hR hk
        exact absurd hu (by simp)
    | cons p rest =>
      rw [solveLoop_cons] at hrun
      cases hgoal : P.is_goal p with
      | true =>
        have hpk : p ∈ DMap.keys hm := inv.qk p (List.mem_cons_self _ _)
        obtain ⟨vp, hvp⟩ := DMap.lookup_eq_some_of_mem hpk
        obtain ⟨vec, hb, hrp⟩ := inv.gm.backtrack_reaches p vp hvp
        rw [hgoal] at hrun
        simp only [if_true] at hrun
        rw [hb] at hrun
        have hrun2 : some (some (vec.reverse, p)) = some r := hrun
        have hr : r = some (vec.reverse, p) := (Option.some.inj hrun2).symm
        subst hr
        refine ⟨?_, fun h => Option.noConfusion h⟩
        intro ms g hmsg
        obtain ⟨hms, hg⟩ : vec.reverse = ms ∧ p = g := by
          have := Option.some.inj hmsg
          exact ⟨congrArg Prod.fst this, congrArg Prod.snd this⟩
        subst hms
        subst hg
        refine ⟨hgoal, hrp, ?_⟩
        intro ns g2 hR hg2
        have hlen : vec.reverse.length = depN hm p := by
          rw [List.length_reverse, depN_eq_of_backtrack hb]
        by_cases hk : g2 ∈ DMap.keys hm
        · by_cases hqq : g2 ∈ p :: rest
          · have hd1 : depN hm p ≤ depN hm g2 := by
              rcases List.mem_cons.mp hqq with h | h
              · exact le_of_eq (by rw [h])
              · exact (List.pairwise_cons.mp inv.sorted).1 g2 h
            have hd2 := inv.mindepth g2 ns hR hk
            omega
          · rw [inv.ng g2 hk hqq] at hg2
            exact Bool.noConfusion hg2
        · obtain ⟨u, ρ1, ρ2, hu, heq, hρ1, _, hd⟩ := inv_cover inv g2 ns hR hk
          have hd1 : depN hm p ≤ depN hm u := by
            rcases List.mem_cons.mp hu with h | h
            · exact le_of_eq (by rw [h])
            · exact (List.pairwise_cons.mp inv.sorted).1 u h
          have hns : ns.length = ρ1.length + ρ2.length := by
            rw [heq, List.length_append]
          omega
      | false =>
        rw [hgoal] at hrun
        simp only [if_false, Bool.false_eq_true] at hrun
        exact ih _ _ r (inv_step inv hgoal) hrun

/-- The loop terminates (without running out of fuel) whenever every
discoverable state lies in a finite set closed under the successor
enumeration, for a large enough fuel measured against that set. -/
theorem loop_terminates {P : Puzzle σ μ} {p0 : σ} (S : Finset σ)
    (hcl : ∀ s ∈ S, ∀ mt ∈ P.next s, mt.2 ∈ S) :
    ∀ (n : Nat) (hm : DMap σ μ) (queue : List σ), SolveInv P p0 hm queue →
      (∀ k ∈ DMap.keys hm, k ∈ S) →
      queue.length + 2 * S.card < n + 2 * (DMap.keys hm).length →
      ∃ r, solveLoop P n hm queue = some r := by
  intro n
  induction n with
  | zero =>
    intro hm queue inv hsub hmeas
    have hnd := inv.gm.keys_nodup
    have hcard : (DMap.keys hm).toFinset.card = (DMap.keys hm).length :=
      List.toFinset_card_of_nodup hnd
    have hsub2 : (DMap.keys hm).toFinset ⊆ S := fun x hx => hsub x (List.mem_toFinset.mp hx)
    have := Finset.card_le_card hsub2
    omega
  | succ n ih =>
    intro hm queue inv hsub hmeas
    cases queue with
    | nil => exact ⟨none, solveLoop_nil P n hm⟩
    | cons p rest =>
      cases hgoal : P.is_goal p with
      | true =>
        have hpk : p ∈ DMap.keys hm := inv.qk p (List.mem_cons_self _ _)
        obtain ⟨vp, hvp⟩ := DMap.lookup_eq_some_of_mem hpk
        obtain ⟨vec, hb, _⟩ := inv.gm.backtrack_reaches p vp hvp
        refine ⟨some (vec.reverse, p), ?_⟩
        rw [solveLoop_cons, hgoal]
        simp [hb]
      | false =>
        obtain ⟨ents, h1, h2, h3, h4, h5, h6⟩ := expand_spec p (P.next p) hm rest
        have hpS : p ∈ S := hsub p (inv.qk p (List.mem_cons_self _ _))
        have hsub2 : ∀ k ∈ DMap.keys (expandLoop P p (P.next p) hm rest).1, k ∈ S := by
          intro k hk
          rw [h1] at hk
          simp only [DMap.keys_append, List.mem_append] at hk
          rcases hk with hk | hk
          · have hk2 : k ∈ List.map Prod.fst ents := hk
            obtain ⟨e, he, het⟩ := List.mem_map.mp hk2
            obtain ⟨m, _, hmem⟩ := h5 e he
            have := hcl p hpS (m, e.1) hmem
            rw [het] at this
            exact this
          · exact hsub k hk
        have hmeas2 : (expandLoop P p (P.next p) hm rest).2.length + 2 * S.card <
            n + 2 * (DMap.keys (expandLoop P p (P.next p) hm rest).1).length := by
          rw [h1, h2]
          simp only [DMap.keys_append, List.length_append, List.length_reverse]
          simp only [List.length_cons] at hmeas
          omega
        obtain ⟨r, hr⟩ := ih _ _ (inv_step inv hgoal) hsub2 hmeas2
        refine ⟨r, ?_⟩
        rw [solveLoop_cons, hgoal]
        simpa using hr

end LoopLemmas

section CheckLemmas

variable {σ μ : Type} [DecidableEq μ]

theorem firstMatch_isSome_of_mem {l : List (μ × σ)} {m : μ} {pp : σ} (h : (m, pp) ∈ l) :
    ∃ pp2, firstMatch l m = some pp2 := by
  induction l with
  | nil => simp at h
  | cons x rest ih =>
    obtain ⟨mx, sx⟩ := x
    by_cases hm2 : m = mx
    · exact ⟨sx, by simp [firstMatch, hm2]⟩
    · rcases List.mem_cons.mp h with h2 | h2
      · exact absurd (congrArg Prod.fst h2) hm2
      · obtain ⟨pp2, hp2⟩ := ih h2
        exact ⟨pp2, by simp [firstMatch, hm2, hp2]⟩

theorem firstMatch_mem {l : List (μ × σ)} {m : μ} {pp : σ}
    (h : firstMatch l m = some pp) : (m, pp) ∈ l := by
  induction l with
  | nil => simp [firstMatch] at h
  | cons x rest ih =>
    obtain ⟨mx, sx⟩ := x
    by_cases hm2 : m = mx
    · simp only [firstMatch, if_pos hm2] at h
      obtain rfl := Option.some.inj h
      rw [hm2]
      exact List.mem_cons_self _ _
    · simp only [firstMatch, if_neg hm2] at h
      exact List.mem_cons_of_mem _ (ih h)

theorem firstMatch_append_first :
    ∀ (l1 : List (μ × σ)) (m : μ) (pp : σ) (l2 : List (μ × σ)), (∀ x ∈ l1, x.1 ≠ m) →
      firstMatch (l1 ++ (m, pp) :: l2) m = some pp := by
  intro l1
  induction l1 with
  | nil => intro m pp l2 _; simp [firstMatch]
  | cons x l1 ih =>
    obtain ⟨mx, sx⟩ := x
    intro m pp l2 hne
    have hmx : mx ≠ m := hne (mx, sx) (List.mem_cons_self _ _)
    rw [List.cons_append]
    simp only [firstMatch, if_neg (Ne.symm hmx)]
    exact ih m pp l2 (fun x hx => hne x (List.mem_cons_of_mem _ hx))

/-- A successful check is exactly a successful replay ending in a goal. -/
theorem check_iff_replay (P : Puzzle σ μ) :
    ∀ (ms : List μ) (p q : σ), check P p ms = some q ↔
      (replay P p ms = some q ∧ P.is_goal q = true) := by
  intro ms
  induction ms with
  | nil =>
    intro p q
    cases hg : P.is_goal p with
    | true =>
      simp only [check, replay, if_pos hg]
      constructor
      · intro h
        refine ⟨h, ?_⟩
        rw [← Option.some.inj h]
        exact hg
      · intro h
        exact h.1
    | false =>
      simp only [check, replay]
      rw [if_neg (by simp [hg])]
      constructor
      · intro h
        exact Option.noConfusion h
      · intro h
        obtain rfl := Option.some.inj h.1
        rw [hg] at h
        exact Bool.noConfusion h.2
  | cons cm ms2 ih =>
    intro p q
    cases hf : firstMatch (P.next p) cm with
    | none =>
      simp only [check, replay, hf]
      constructor
      · intro h; exact Option.noConfusion h
      · intro h; exact Option.noConfusion h.1
    | some pp =>
      simp only [check, replay, hf]
      exact ih pp q

/-- Checking a concatenation first replays the prefix. -/
theorem check_append_replay (P : Puzzle σ μ) :
    ∀ (pre : List μ) (p : σ) (suf : List μ),
      check P p (pre ++ suf) =
        match replay P p pre with
        | none => none
        | some r => check P r suf := by
  intro pre
  induction pre with
  | nil => intro p suf; rfl
  | cons cm pre2 ih =>
    intro p suf
    rw [List.cons_append]
    cases hf : firstMatch (P.next p) cm with
    | none => simp only [check, replay, hf]
    | some pp =>
      simp only [check, replay, hf]
      exact ih pp suf

/-- A path whose moves are deterministic labels replays through check. -/
theorem check_of_reaches_det {P : Puzzle σ μ}
    (hdet : ∀ (s : σ) (m : μ) (t1 t2 : σ), (m, t1) ∈ P.next s → (m, t2) ∈ P.next s → t1 = t2) :
    ∀ (ms : List μ) (p q : σ), Reaches P p ms q → P.is_goal q = true →
      check P p ms = some q := by
  intro ms
  induction ms with
  | nil =>
    intro p q hR hg
    cases hR
    simp [check, hg]
  | cons m ms2 ih =>
    intro p q hR hg
    cases hR with
    | cons hstep htail =>
      rename_i p1
      obtain ⟨pp2, hf⟩ := firstMatch_isSome_of_mem hstep
      have hmem2 := firstMatch_mem hf
      have heq : pp2 = p1 := hdet p m pp2 p1 hmem2 hstep
      subst heq
      simp only [check, hf]
      exact ih pp2 q htail hg

end CheckLemmas

section GenLoopLemmas

variable {σ μ : Type} [DecidableEq σ]

theorem solveLoopGen_cons (P : Puzzle σ μ) (crash : Option (Option (List μ × σ)))
    (fuel : Nat) (hm : DMap σ μ) (p : σ) (rest : List σ) :
    solveLoopGen P crash (fuel + 1) hm (p :: rest) =
      if P.is_goal p then
        match backtrack hm p with
        | none => some none
        | some vec => some (some (vec.reverse, p))
      else
        solveLoopGen P crash fuel (expandLoop P p (P.next p) hm rest).1
          (expandLoop P p (P.next p) hm rest).2 := rfl

theorem solveReach_inv {P : Puzzle σ μ} {p0 : σ} {cfg : DMap σ μ × List σ}
    (h : SolveReach P p0 cfg) : SolveInv P p0 cfg.1 cfg.2 := by
  induction h with
  | init => exact inv_init P p0
  | step h hgoal ih => exact inv_step ih hgoal

end GenLoopLemmas

/-- C1: whenever `solve` returns a solution `(ms, goal)` (within any fuel),
no sequence of legal moves (each taken from the `next` enumeration of the
state it is applied to) leads from the start to a goal state in fewer than
`ms.length` moves. -/
theorem claim_C1 {σ μ : Type} [DecidableEq σ] (P : Puzzle σ μ) (p0 : σ) (fuel : Nat)
    (ms : List μ) (g : σ) (hrun : solveWithFuel P fuel p0 = some (some (ms, g))) :
    ∀ (ns : List μ) (g2 : σ), Reaches P p0 ns g2 → P.is_goal g2 = true →
      ms.length ≤ ns.length :=
  ((loop_correct fuel [(p0, none)] [p0] (some (ms, g)) (inv_init P p0) hrun).1 ms g rfl).2.2

theorem claim_C1_witness :
    ([0, 0] : List (Fin 2)).length ≤ ([0, 0] : List (Fin 2)).length :=
  claim_C1 PcF 0 5 [0, 0] 2 (by decide) [0, 0] 2
    (@Reaches.cons (Fin 3) (Fin 2) PcF 0 1 2 0 [0] (by decide)
      (@Reaches.cons (Fin 3) (Fin 2) PcF 1 2 2 0 [] (by decide) Reaches.nil))
    (by decide)

/-- C2 (counterexample): the claim fails as stated.  On the concrete puzzle
`PbadF` the start has two successors labelled with the same move; `solve`
finds the goal state 2 through the second one, but `check` replays the move
through the first matching pair, ends in the non-goal state 1, and returns
`none` instead of `some 2`. -/
theorem claim_C2_cex :
    solveWithFuel PbadF 5 0 = some (some ([0], 2)) ∧ check PbadF 0 [0] = none := by
  exact ⟨by decide, by decide⟩

/-- C2 (amended): if, in addition, no state's `next` enumeration pairs the
same move with two different successor states, then a solution returned by
`solve` replays through `check` to the same goal state. -/
theorem claim_C2_amended {σ μ : Type} [DecidableEq σ] [DecidableEq μ] (P : Puzzle σ μ)
    (p0 : σ) (fuel : Nat) (ms : List μ) (g : σ)
    (hdet : ∀ (s : σ) (m : μ) (t1 t2 : σ), (m, t1) ∈ P.next s → (m, t2) ∈ P.next s → t1 = t2)
    (hrun : solveWithFuel P fuel p0 = some (some (ms, g))) :
    check P p0 ms = some g := by
  obtain ⟨hg, hR, _⟩ :=
    (loop_correct fuel [(p0, none)] [p0] (some (ms, g)) (inv_init P p0) hrun).1 ms g rfl
  exact check_of_reaches_det hdet ms p0 g hR hg

theorem claim_C2_amended_witness : check PcF 0 [0, 0] = some 2 :=
  claim_C2_amended PcF 0 5 [0, 0] 2 (by decide) (by decide)

/-- C3: if every discoverable state lies in a finite set closed under the
successor enumeration, then for a large enough fuel the solver terminates by
itself: it returns a solution when some legal move sequence reaches a goal,
and returns its own failure result (the frontier empties) when no legal move
sequence reaches a goal. -/
theorem claim_C3 {σ μ : Type} [DecidableEq σ] (P : Puzzle σ μ) (p0 : σ) (S : Finset σ)
    (hp0 : p0 ∈ S) (hcl : ∀ s ∈ S, ∀ mt ∈ P.next s, mt.2 ∈ S) :
    ∃ fuel,
      ((∃ (ms : List μ) (g : σ), Reaches P p0 ms g ∧ P.is_goal g = true) →
        ∃ (ms : List μ) (g : σ), solveWithFuel P fuel p0 = some (some (ms, g))) ∧
      ((∀ (ms : List μ) (g : σ), Reaches P p0 ms g → P.is_goal g = false) →
        solveWithFuel P fuel p0 = some none) := by
  refine ⟨2 * S.card + 2, ?_⟩
  have hsub : ∀ k ∈ DMap.keys ([(p0, (none : Option (σ × μ)))]), k ∈ S := by
    intro k hk
    simp only [DMap.keys_cons, DMap.keys_nil, List.mem_singleton] at hk
    rw [hk]
    exact hp0
  have hmeas : ([p0] : List σ).length + 2 * S.card <
      (2 * S.card + 2) + 2 * (DMap.keys ([(p0, (none : Option (σ × μ)))])).length := by
    simp only [List.length_singleton, DMap.keys_cons, DMap.keys_nil, List.length_cons,
      List.length_nil]
    omega
  obtain ⟨r, hr⟩ :=
    loop_terminates S hcl (2 * S.card + 2) [(p0, none)] [p0] (inv_init P p0) hsub hmeas
  have hl := loop_correct (2 * S.card + 2) [(p0, none)] [p0] r (inv_init P p0) hr
  constructor
  · rintro ⟨ms, g, hR, hg⟩
    cases r with
    | none =>
      rw [hl.2 rfl ms g hR] at hg
      exact Bool.noConfusion hg
    | some mg =>
      refine ⟨mg.1, mg.2, ?_⟩
      show solveLoop P (2 * S.card + 2) [(p0, none)] [p0] = some (some (mg.1, mg.2))
      rw [hr, Prod.mk.eta]
  · intro hnone
    cases r with
    | none => exact hr
    | some mg =>
      obtain ⟨hg, hR, _⟩ := hl.1 mg.1 mg.2 (by rw [Prod.mk.eta])
      rw [hnone mg.1 mg.2 hR] at hg
      exact Bool.noConfusion hg

theorem claim_C3_witness :
    ∃ fuel,
      ((∃ (ms : List (Fin 2)) (g : Fin 3), Reaches PcF 0 ms g ∧ PcF.is_goal g = true) →
        ∃ (ms : List (Fin 2)) (g : Fin 3), solveWithFuel PcF fuel 0 = some (some (ms, g))) ∧
      ((∀ (ms : List (Fin 2)) (g : Fin 3), Reaches PcF 0 ms g → PcF.is_goal g = false) →
        solveWithFuel PcF fuel 0 = some none) :=
  claim_C3 PcF 0 Finset.univ (by decide) (by decide)

/-- C4: `check` succeeds with state `q` exactly when the first-match replay
of the whole sequence reaches `q` and `q` is a goal; it returns `none` as
soon as some move of the sequence has no matching successor pair, whatever
the remaining moves are; and a fully legal replay ending in a non-goal state
also returns `none` (the two failure causes yield the same result). -/
theorem claim_C4 {σ μ : Type} [DecidableEq μ] (P : Puzzle σ μ) (p0 : σ) :
    (∀ (ms : List μ) (q : σ), check P p0 ms = some q ↔
      (replay P p0 ms = some q ∧ P.is_goal q = true)) ∧
    (∀ (pre : List μ) (r : σ) (m : μ), replay P p0 pre = some r →
      firstMatch (P.next r) m = none → ∀ suf, check P p0 (pre ++ m :: suf) = none) ∧
    (∀ (ms : List μ) (q : σ), replay P p0 ms = some q → P.is_goal q = false →
      check P p0 ms = none) := by
  refine ⟨fun ms q => check_iff_replay P ms p0 q, ?_, ?_⟩
  · intro pre r m hpre hnom suf
    rw [check_append_replay P pre p0 (m :: suf), hpre]
    show check P r (m :: suf) = none
    simp only [check, hnom]
  · intro ms q hrep hg
    have h2 := check_append_replay P ms p0 []
    rw [List.append_nil, hrep] at h2
    rw [h2]
    show check P q [] = none
    simp [check, hg]

theorem claim_C4_witness : check PcF 0 ([] ++ (1 : Fin 2) :: [0]) = none :=
  (claim_C4 PcF 0).2.1 [] 0 1 rfl (by decide) [0]

/-- C5: when the start state is already a goal, the solver (with any
positive fuel) returns the empty move sequence paired with the start state
itself. -/
theorem claim_C5 {σ μ : Type} [DecidableEq σ] (P : Puzzle σ μ) (p0 : σ)
    (hg : P.is_goal p0 = true) (fuel : Nat) (hf : 1 ≤ fuel) :
    solveWithFuel P fuel p0 = some (some (([] : List μ), p0)) := by
  obtain ⟨n, rfl⟩ : ∃ n, fuel = n + 1 := ⟨fuel - 1, by omega⟩
  show solveLoop P (n + 1) [(p0, none)] [p0] = _
  rw [solveLoop_cons, hg]
  simp [backtrack_singleton_start]

theorem claim_C5_witness : solveWithFuel Ptriv 1 0 = some (some (([] : List (Fin 1)), 0)) :=
  claim_C5 Ptriv 0 rfl 1 le_rfl

/-- C6: in every configuration a run of `solve` reaches, the discovery map
has exactly one entry per state; an expansion step never overwrites an
existing entry and never re-pushes an already recorded state onto the
frontier; and among several successors equal to the same fresh state, the
first enumerated one provides the recorded predecessor and move. -/
theorem claim_C6 {σ μ : Type} [DecidableEq σ] (P : Puzzle σ μ) (p0 : σ) (hm : DMap σ μ)
    (q : List σ) (h : SolveReach P p0 (hm, q)) :
    (DMap.keys hm).Nodup ∧
    (∀ p rest, q = p :: rest → P.is_goal p = false →
      (∀ s v, DMap.lookup hm s = some v →
        DMap.lookup (expandLoop P p (P.next p) hm rest).1 s = some v) ∧
      (∀ s, s ∈ DMap.keys hm → s ∉ rest → s ∉ (expandLoop P p (P.next p) hm rest).2) ∧
      (∀ l1 m t l2, P.next p = l1 ++ (m, t) :: l2 → (∀ x ∈ l1, x.2 ≠ t) →
        DMap.lookup hm t = none →
        DMap.lookup (expandLoop P p (P.next p) hm rest).1 t = some (some (p, m)))) := by
  refine ⟨(solveReach_inv h).gm.keys_nodup, ?_⟩
  intro p rest hq hgoal
  subst hq
  refine ⟨?_, ?_, ?_⟩
  · intro s v hv
    exact expand_lookup_pres (P.next p) hm rest s v hv
  · intro s hs hsrest
    obtain ⟨ents, h1, h2, _, h4, _, _⟩ := expand_spec p (P.next p) hm rest
    rw [h2]
    intro hc
    rcases List.mem_append.mp hc with hc | hc
    · exact hsrest hc
    · have hse : s ∈ DMap.keys ents := List.mem_reverse.mp hc
      exact (DMap.lookup_eq_none_iff hm s).mp (h4 s hse) hs
  · intro l1 m t l2 hnext hne hnone
    rw [hnext]
    exact expand_first_wins l1 m t l2 hm rest hne hnone

theorem claim_C6_witness :
    DMap.lookup
      (expandLoop PbadF 0 (PbadF.next 0) [((0 : Fin 3), (none : Option (Fin 3 × Fin 1)))] []).1
      0 = some none :=
  ((claim_C6 PbadF 0 [(0, none)] [0] SolveReach.init).2 0 [] rfl (by decide)).1 0 none
    (by decide)

/-- C7: in every configuration a run of `solve` reaches, every state on the
frontier is already recorded as a key of the discovery map. -/
theorem claim_C7 {σ μ : Type} [DecidableEq σ] (P : Puzzle σ μ) (p0 : σ) (hm : DMap σ μ)
    (q : List σ) (h : SolveReach P p0 (hm, q)) : ∀ u ∈ q, u ∈ DMap.keys hm :=
  (solveReach_inv h).qk

theorem claim_C7_witness :
    (0 : Fin 3) ∈ DMap.keys [((0 : Fin 3), (none : Option (Fin 3 × Fin 1)))] :=
  claim_C7 PbadF 0 [(0, none)] [0] SolveReach.init 0 (by decide)

/-- C8: if the backtracking step is handed a state with no entry in the
discovery map, it returns `none`, and the solver loop, popping such a goal
state, in turn returns the failure result rather than anything undefined. -/
theorem claim_C8 {σ μ : Type} [DecidableEq σ] (P : Puzzle σ μ) (hm : DMap σ μ) (p1 : σ)
    (fuel : Nat) (rest : List σ) (hmiss : DMap.lookup hm p1 = none) :
    backtrack hm p1 = none ∧
    (P.is_goal p1 = true → solveLoop P (fuel + 1) hm (p1 :: rest) = some none) := by
  have hb : backtrack hm p1 = none := by
    rw [backtrack_eq, hmiss]
  refine ⟨hb, fun hg => ?_⟩
  rw [solveLoop_cons, hg]
  simp [hb]

theorem claim_C8_witness :
    backtrack ([] : DMap (Fin 3) (Fin 1)) 2 = none ∧
    (PbadF.is_goal 2 = true → solveLoop PbadF 1 [] [2] = some none) :=
  claim_C8 PbadF [] 2 0 [] rfl

/-- C9: the `None` arm of the `pop_front` match in the solver loop is
unreachable: the loop body only runs when the queue is non-empty, so the
value returned by that arm never influences the result. -/
theorem claim_C9 {σ μ : Type} [DecidableEq σ] (P : Puzzle σ μ)
    (crash : Option (Option (List μ × σ))) :
    ∀ (fuel : Nat) (hm : DMap σ μ) (queue : List σ),
      solveLoopGen P crash fuel hm queue = solveLoop P fuel hm queue := by
  intro fuel
  induction fuel with
  | zero => intro hm queue; rfl
  | succ fuel ih =>
    intro hm queue
    cases queue with
    | nil => rfl
    | cons p rest =>
      rw [solveLoopGen_cons, solveLoop_cons]
      cases hgoal : P.is_goal p with
      | true => rfl
      | false =>
        simp only [Bool.false_eq_true, if_false]
        exact ih _ _

/-- C10: when the successor enumeration contains several pairs carrying the
move being replayed, `check` advances to the successor of the first such
pair, independently of everything listed after it. -/
theorem claim_C10 {σ μ : Type} [DecidableEq μ] (P : Puzzle σ μ) (p : σ)
    (l1 : List (μ × σ)) (m : μ) (pp : σ) (l2 : List (μ × σ)) (ms : List μ)
    (hnext : P.next p = l1 ++ (m, pp) :: l2) (hfirst : ∀ x ∈ l1, x.1 ≠ m) :
    check P p (m :: ms) = check P pp ms := by
  have hf : firstMatch (P.next p) m = some pp := by
    rw [hnext]
    exact firstMatch_append_first l1 m pp l2 hfirst
  simp only [check, hf]

theorem claim_C10_witness : check PbadF 0 [0] = check PbadF 1 [] :=
  claim_C10 PbadF 0 [] 0 1 [(0, 2)] [] rfl (by simp)
